import Mathlib

/-!
Shallow embedding of `src/task_2.py`: two implementations of a fixed-capacity
FIFO ring buffer.

* `CyclicBufferOne` models the `collections.deque(maxlen=...)`-based class:
  a deque with `maxlen` keeps the last `maxlen` appended items, oldest first;
  `deque(maxlen=n)` raises `ValueError` for negative `n`.
* `CyclicBufferTwo` models the manual fixed-array class with fields
  `buffer`, `size`, `position`, `count`.

Python integers are modelled as `Int`.  Python's `%` is floor modulo and
raises `ZeroDivisionError` on a zero modulus; list indexing admits negative
indices (counted from the end) and raises `IndexError` out of range; slices
never fail and clamp their bounds.  Fallible operations return `Option` or
`Except BufErr`.
-/

/-- Error kinds surfaced by the Python code: the explicit
`IndexError("Список пустой.")` raised on an empty buffer, an out-of-range
index, a zero modulus, and `ValueError` from `deque` with negative `maxlen`. -/
inductive BufErr where
  | emptyBuffer
  | indexError
  | zeroDivision
  | valueError
deriving Repr, DecidableEq

/-- Python `a % b`: floor modulo; `ZeroDivisionError` when `b = 0`. -/
def pyMod (a b : Int) : Option Int :=
  if b = 0 then none else some (Int.fmod a b)

/-- Python `l[i]`: a negative index counts from the end; out of range is
`IndexError`. -/
def pyGet (l : List Int) (i : Int) : Option Int :=
  let j : Int := if i < 0 then (l.length : Int) + i else i
  if 0 ≤ j ∧ j < (l.length : Int) then some (l.getD j.toNat 0) else none

/-- Python `l[i] = v`: a negative index counts from the end; out of range is
`IndexError`. -/
def pySet (l : List Int) (i : Int) (v : Int) : Option (List Int) :=
  let j : Int := if i < 0 then (l.length : Int) + i else i
  if 0 ≤ j ∧ j < (l.length : Int) then some (l.set j.toNat v) else none

/-- Python slice `l[i:]`: clamps, never fails. -/
def pyDrop (l : List Int) (i : Int) : List Int :=
  if i < 0 then l.drop ((l.length : Int) + i).toNat else l.drop i.toNat

/-- Python slice `l[:i]`: clamps, never fails. -/
def pyTake (l : List Int) (i : Int) : List Int :=
  if i < 0 then l.take ((l.length : Int) + i).toNat else l.take i.toNat

/-- The deque-based implementation.  A Python `deque(maxlen=m)` is modelled
by its `maxlen` together with its elements listed oldest first. -/
structure CyclicBufferOne where
  maxlen : Int
  buffer : List Int
deriving Repr, DecidableEq

/-- `CyclicBufferOne.__init__`: `deque(maxlen=buffer_size)`; `deque` raises
`ValueError` for a negative `maxlen`. -/
def CyclicBufferOne.init (buffer_size : Int) : Except BufErr CyclicBufferOne :=
  if buffer_size < 0 then .error .valueError
  else .ok { maxlen := buffer_size, buffer := [] }

/-- `CyclicBufferOne.append`: `deque.append` adds on the right and discards
from the left while the length exceeds `maxlen`. -/
def CyclicBufferOne.append (s : CyclicBufferOne) (item : Int) : CyclicBufferOne :=
  let l := s.buffer ++ [item]
  { maxlen := s.maxlen, buffer := l.drop (l.length - s.maxlen.toNat) }

/-- `CyclicBufferOne.get_buffer`: `list(self.buffer)`. -/
def CyclicBufferOne.get_buffer (s : CyclicBufferOne) : List Int :=
  s.buffer

/-- `CyclicBufferOne.peek_top`: raises on an empty deque, else `buffer[-1]`. -/
def CyclicBufferOne.peek_top (s : CyclicBufferOne) : Except BufErr Int :=
  if s.buffer = [] then .error .emptyBuffer
  else
    match pyGet s.buffer (-1) with
    | none => .error .indexError
    | some v => .ok v

/-- `CyclicBufferOne.peek_bottom`: raises on an empty deque, else `buffer[0]`. -/
def CyclicBufferOne.peek_bottom (s : CyclicBufferOne) : Except BufErr Int :=
  if s.buffer = [] then .error .emptyBuffer
  else
    match pyGet s.buffer 0 with
    | none => .error .indexError
    | some v => .ok v

/-- The manual fixed-array implementation: fields exactly as in the Python
class. -/
structure CyclicBufferTwo where
  buffer : List Int
  size : Int
  position : Int
  count : Int
deriving Repr, DecidableEq

/-- `CyclicBufferTwo.__init__`: `self.buffer = [0] * buffer_size` (the empty
list when `buffer_size ≤ 0`), `self.size = buffer_size`, `self.position = 0`,
`self.count = 0`.  No validation is performed; construction always succeeds. -/
def CyclicBufferTwo.init (buffer_size : Int) : CyclicBufferTwo :=
  { buffer := List.replicate buffer_size.toNat 0
    size := buffer_size
    position := 0
    count := 0 }

/-- `CyclicBufferTwo.append`: `self.buffer[self.position] = item`;
`self.position = (self.position + 1) % self.size`; increment `count` when
`count < size`. -/
def CyclicBufferTwo.append (s : CyclicBufferTwo) (item : Int) :
    Option CyclicBufferTwo :=
  match pySet s.buffer s.position item with
  | none => none
  | some buf =>
    match pyMod (s.position + 1) s.size with
    | none => none
    | some p =>
      some { buffer := buf
             size := s.size
             position := p
             count := if s.count < s.size then s.count + 1 else s.count }

/-- `CyclicBufferTwo.get_buffer`: `self.buffer[:self.count]` when
`count < size`, else `self.buffer[self.position:] + self.buffer[:self.position]`. -/
def CyclicBufferTwo.get_buffer (s : CyclicBufferTwo) : List Int :=
  if s.count < s.size then pyTake s.buffer s.count
  else pyDrop s.buffer s.position ++ pyTake s.buffer s.position

/-- `CyclicBufferTwo.peek_top`: raises when `count == 0`, else
`self.buffer[(self.position - 1) % self.size]`. -/
def CyclicBufferTwo.peek_top (s : CyclicBufferTwo) : Except BufErr Int :=
  if s.count = 0 then .error .emptyBuffer
  else
    match pyMod (s.position - 1) s.size with
    | none => .error .zeroDivision
    | some i =>
      match pyGet s.buffer i with
      | none => .error .indexError
      | some v => .ok v

/-- `CyclicBufferTwo.peek_bottom`: raises when `count == 0`; returns
`self.buffer[0]` when `count < size`, else `self.buffer[self.position]`. -/
def CyclicBufferTwo.peek_bottom (s : CyclicBufferTwo) : Except BufErr Int :=
  if s.count = 0 then .error .emptyBuffer
  else if s.count < s.size then
    match pyGet s.buffer 0 with
    | none => .error .indexError
    | some v => .ok v
  else
    match pyGet s.buffer s.position with
    | none => .error .indexError
    | some v => .ok v

/-- Construct a `CyclicBufferTwo` of the given capacity and append the items
in order; `none` if any append fails. -/
def runTwo (c : Int) (xs : List Int) : Option CyclicBufferTwo :=
  xs.foldlM CyclicBufferTwo.append (CyclicBufferTwo.init c)

/-- Construct a `CyclicBufferOne` of the given capacity and append the items
in order; appends on a deque never fail. -/
def runOne (c : Int) (xs : List Int) : Except BufErr CyclicBufferOne :=
  (CyclicBufferOne.init c).map (fun s => xs.foldl CyclicBufferOne.append s)

/-- The last `c` elements of a list (the whole list when it is shorter). -/
def lastN (c : Nat) (l : List Int) : List Int :=
  l.drop (l.length - c)

/-- Reachability invariant of `CyclicBufferTwo` after appending `xs` to a
buffer of capacity `cn ≥ 1`. -/
def ReachInv (cn : Nat) (xs : List Int) (s : CyclicBufferTwo) : Prop :=
  s.size = (cn : Int) ∧
  s.buffer.length = cn ∧
  s.count = ((min xs.length cn : Nat) : Int) ∧
  s.position = ((xs.length % cn : Nat) : Int) ∧
  s.get_buffer = lastN cn xs

/-- The contents extraction exactly as the spec words it, by indices: when
`count < capacity` the elements `storage[0 .. count)`; when the buffer is
full, `storage[write_position .. capacity)` followed by
`storage[0 .. write_position)`. -/
def specContents (s : CyclicBufferTwo) : List Int :=
  if s.count < s.size then
    (List.range s.count.toNat).map (fun i => s.buffer.getD i 0)
  else
    (List.range (s.size.toNat - s.position.toNat)).map
        (fun i => s.buffer.getD (s.position.toNat + i) 0)
      ++ (List.range s.position.toNat).map (fun i => s.buffer.getD i 0)

example : runTwo 3 [1, 2, 3, 4, 5] =
    some { buffer := [4, 5, 3], size := 3, position := 2, count := 3 } := by decide

example : (runTwo 3 [1, 2, 3, 4, 5]).map CyclicBufferTwo.get_buffer =
    some [3, 4, 5] := by decide

example : (runTwo 3 [1, 2, 3, 4, 5]).map CyclicBufferTwo.peek_top =
    some (.ok 5) := by rfl

example : (runTwo 3 [1, 2, 3, 4, 5]).map CyclicBufferTwo.peek_bottom =
    some (.ok 3) := by rfl

example : (runOne 3 [1, 2, 3, 4, 5]).map CyclicBufferOne.get_buffer =
    .ok [3, 4, 5] := by rfl

example : (runTwo 5 [7, 8]).map CyclicBufferTwo.get_buffer = some [7, 8] := by decide

/-! ### Evaluation lemmas for the Python primitives on in-range arguments -/

theorem pyTake_natCast (l : List Int) (n : Nat) : pyTake l (n : Int) = l.take n := by
  simp [pyTake]

theorem pyDrop_natCast (l : List Int) (n : Nat) : pyDrop l (n : Int) = l.drop n := by
  simp [pyDrop]

theorem pySet_natCast (l : List Int) (n : Nat) (v : Int) (h : n < l.length) :
    pySet l (n : Int) v = some (l.set n v) := by
  have h1 : ¬ ((n : Int) < 0) := by omega
  have h2 : (0 : Int) ≤ (n : Int) ∧ (n : Int) < (l.length : Int) := ⟨by omega, by omega⟩
  simp only [pySet, if_neg h1]
  rw [if_pos h2]
  simp

theorem pyGet_natCast (l : List Int) (n : Nat) (h : n < l.length) :
    pyGet l (n : Int) = some (l.getD n 0) := by
  have h1 : ¬ ((n : Int) < 0) := by omega
  have h2 : (0 : Int) ≤ (n : Int) ∧ (n : Int) < (l.length : Int) := ⟨by omega, by omega⟩
  simp only [pyGet, if_neg h1]
  rw [if_pos h2]
  simp

theorem pyMod_natCast (a cn : Nat) (h : 0 < cn) :
    pyMod (a : Int) (cn : Int) = some (((a % cn : Nat) : Int)) := by
  simp only [pyMod]
  rw [if_neg (by omega), Int.fmod_eq_emod _ (by omega)]
  simp [Int.ofNat_emod]

/-! ### List helper lemmas -/

theorem take_succ_set (B : List Int) (n : Nat) (x : Int) (h : n < B.length) :
    (B.set n x).take (n + 1) = B.take n ++ [x] := by
  rw [List.set_eq_take_append_cons_drop, if_pos h,
    List.take_append_eq_append_take, List.take_take]
  have hlt : (B.take n).length = n := List.length_take_of_le (Nat.le_of_lt h)
  rw [hlt]
  simp [Nat.min_eq_left (Nat.le_succ n)]

theorem set_of_length_succ (B : List Int) (n : Nat) (x : Int) (h : B.length = n + 1) :
    B.set n x = B.take n ++ [x] := by
  rw [List.set_eq_take_append_cons_drop, if_pos (by omega),
    List.drop_eq_nil_of_le (by omega)]

theorem take_succ_getD (B : List Int) (n : Nat) (h : n < B.length) :
    B.take (n + 1) = B.take n ++ [B.getD n 0] := by
  rw [List.take_succ]
  congr 1
  rw [List.getElem?_eq_getElem h]
  simp [List.getD_eq_getElem?_getD, List.getElem?_eq_getElem h]

theorem getLast?_take_getD (B : List Int) (n : Nat) (h1 : 1 ≤ n) (h2 : n ≤ B.length) :
    (B.take n).getLast? = some (B.getD (n - 1) 0) := by
  obtain ⟨m, rfl⟩ : ∃ m, n = m + 1 := ⟨n - 1, by omega⟩
  rw [take_succ_getD B m (by omega), List.getLast?_concat]
  simp

theorem head?_getD (l : List Int) (h : l ≠ []) : l.head? = some (l.getD 0 0) := by
  cases l with
  | nil => exact absurd rfl h
  | cons a t => simp

theorem take_eq_range_map (l : List Int) (n : Nat) (h : n ≤ l.length) :
    l.take n = (List.range n).map (fun i => l.getD i 0) := by
  induction n with
  | zero => simp
  | succ m ih =>
    rw [List.range_succ, List.map_append, ← ih (by omega),
      take_succ_getD l m (by omega)]
    simp

theorem drop_eq_range_map (l : List Int) :
    ∀ p : Nat, l.drop p = (List.range (l.length - p)).map (fun i => l.getD (p + i) 0) := by
  induction l with
  | nil => intro p; simp
  | cons a t ih =>
    intro p
    cases p with
    | zero =>
      have ht := ih 0
      simp only [Nat.sub_zero, List.drop_zero, Nat.zero_add] at ht ⊢
      simp only [List.length_cons, List.range_succ_eq_map, List.map_cons, List.map_map,
        List.getD_cons_zero]
      congr 1
    | succ q =>
      rw [List.drop_succ_cons, ih q]
      simp only [List.length_cons]
      have h1 : t.length + 1 - (q + 1) = t.length - q := by omega
      rw [h1]
      apply List.map_congr_left
      intro i _
      have h2 : q + 1 + i = (q + i) + 1 := by omega
      rw [h2, List.getD_cons_succ]

theorem lastN_of_le {c : Nat} {l : List Int} (h : l.length ≤ c) : lastN c l = l := by
  unfold lastN
  rw [Nat.sub_eq_zero_of_le h, List.drop_zero]

theorem lastN_length (c : Nat) (l : List Int) : (lastN c l).length = min l.length c := by
  unfold lastN
  rw [List.length_drop]
  omega

theorem lastN_append_of_le {c : Nat} {xs : List Int} (hc : 1 ≤ c) (h : c ≤ xs.length)
    (x : Int) : lastN c (xs ++ [x]) = (lastN c xs).drop 1 ++ [x] := by
  unfold lastN
  rw [List.length_append]
  have h1 : xs.length + [x].length - c = xs.length + 1 - c := by simp
  rw [h1, List.drop_append_of_le_length (by omega), List.drop_drop]
  congr 2
  omega

/-! ### Evaluating the operations on states with known field shapes -/

theorem get_buffer_eval (s : CyclicBufferTwo) (cn count pn : Nat)
    (hsize : s.size = (cn : Int)) (hcount : s.count = (count : Int))
    (hpos : s.position = (pn : Int)) :
    s.get_buffer = if count < cn then s.buffer.take count
      else s.buffer.drop pn ++ s.buffer.take pn := by
  unfold CyclicBufferTwo.get_buffer
  rw [hsize, hcount, hpos, pyTake_natCast, pyDrop_natCast, pyTake_natCast]
  by_cases h : count < cn
  · rw [if_pos (by exact_mod_cast h), if_pos h]
  · rw [if_neg (by exact_mod_cast h), if_neg h]

theorem append_eval (s : CyclicBufferTwo) (x : Int) (cn pn : Nat)
    (hsize : s.size = (cn : Int)) (hpos : s.position = (pn : Int))
    (hc : 0 < cn) (hlen : pn < s.buffer.length) :
    s.append x = some { buffer := s.buffer.set pn x
                        size := (cn : Int)
                        position := (((pn + 1) % cn : Nat) : Int)
                        count := if s.count < (cn : Int) then s.count + 1
                          else s.count } := by
  unfold CyclicBufferTwo.append
  rw [hpos, hsize, pySet_natCast _ _ _ hlen]
  have h1 : ((pn : Int) + 1) = ((pn + 1 : Nat) : Int) := by push_cast; ring
  rw [h1, pyMod_natCast _ _ hc]

/-! ### The reachability invariant is established and preserved -/

theorem reachInv_init (cn : Nat) (hc : 1 ≤ cn) :
    ReachInv cn [] (CyclicBufferTwo.init (cn : Int)) := by
  have hlen : (CyclicBufferTwo.init (cn : Int)).buffer.length = cn := by
    simp [CyclicBufferTwo.init]
  refine ⟨rfl, hlen, by simp [CyclicBufferTwo.init], by simp [CyclicBufferTwo.init], ?_⟩
  rw [get_buffer_eval _ cn 0 0 rfl rfl rfl, if_pos (by omega)]
  simp [lastN]

theorem reachInv_append {cn : Nat} (hc : 1 ≤ cn) {xs : List Int} {s : CyclicBufferTwo}
    (h : ReachInv cn xs s) (x : Int) :
    ∃ s2, s.append x = some s2 ∧ ReachInv cn (xs ++ [x]) s2 := by
  obtain ⟨hsize, hlen, hcount, hpos, hget⟩ := h
  have hc0 : 0 < cn := hc
  set n := xs.length with hn
  set pn := n % cn with hpndef
  have hpnlt : pn < cn := Nat.mod_lt n hc0
  have happ := append_eval s x cn pn hsize hpos hc0 (by omega)
  set s2 : CyclicBufferTwo := { buffer := s.buffer.set pn x
                                size := (cn : Int)
                                position := (((pn + 1) % cn : Nat) : Int)
                                count := if s.count < (cn : Int) then s.count + 1
                                  else s.count } with hs2def
  have hlen_app : (xs ++ [x]).length = n + 1 := by simp [hn]
  have hsize2 : s2.size = (cn : Int) := rfl
  have hlen2 : s2.buffer.length = cn := by
    rw [hs2def]
    simpa using hlen
  have hcount2 : s2.count = ((min (n + 1) cn : Nat) : Int) := by
    rw [hs2def]
    dsimp only
    rw [hcount]
    split <;> omega
  have hmods : (pn + 1) % cn = (n + 1) % cn := by
    rw [hpndef]
    rw [Nat.add_mod n 1 cn, Nat.add_mod (n % cn) 1 cn, Nat.mod_mod]
  have hpos2 : s2.position = (((n + 1) % cn : Nat) : Int) := by
    rw [hs2def]
    dsimp only
    exact_mod_cast hmods
  have hbuf2 : s2.buffer = s.buffer.set pn x := rfl
  have hgetEval := get_buffer_eval s cn (min n cn) pn hsize hcount hpos
  have hget2Eval := get_buffer_eval s2 cn (min (n + 1) cn) ((n + 1) % cn) hsize2 hcount2 hpos2
  refine ⟨s2, happ, hsize2, hlen2, by rw [hlen_app]; exact hcount2,
    by rw [hlen_app]; exact hpos2, ?_⟩
  rw [hget2Eval, hbuf2]
  by_cases hcase : n < cn
  · -- the buffer was not yet full
    have hpn_eq : pn = n := by rw [hpndef]; exact Nat.mod_eq_of_lt hcase
    have htake : s.buffer.take n = xs := by
      have h1 := hgetEval
      rw [hget, lastN_of_le (by omega), Nat.min_eq_left (by omega), if_pos hcase] at h1
      exact h1.symm
    by_cases hcase2 : n + 1 < cn
    · rw [Nat.min_eq_left (by omega), if_pos hcase2, hpn_eq,
        take_succ_set s.buffer n x (by omega), htake,
        lastN_of_le (show (xs ++ [x]).length ≤ cn by rw [hlen_app]; omega)]
    · have hcn : cn = n + 1 := by omega
      have hmod0 : (n + 1) % cn = 0 := by rw [hcn, Nat.mod_self]
      rw [Nat.min_eq_right (by omega), if_neg (lt_irrefl cn), hmod0]
      simp only [List.drop_zero, List.take_zero, List.append_nil]
      rw [hpn_eq, set_of_length_succ s.buffer n x (by omega), htake,
        lastN_of_le (show (xs ++ [x]).length ≤ cn by rw [hlen_app]; omega)]
  · -- the buffer was already full
    push_neg at hcase
    have hL : s.buffer.drop pn ++ s.buffer.take pn = lastN cn xs := by
      have h1 := hgetEval
      rw [hget, Nat.min_eq_right (by omega), if_neg (lt_irrefl cn)] at h1
      exact h1.symm
    rw [Nat.min_eq_right (by omega), if_neg (lt_irrefl cn),
      lastN_append_of_le hc (by omega) x, ← hL]
    have hdropL : (s.buffer.drop pn ++ s.buffer.take pn).drop 1 =
        s.buffer.drop (pn + 1) ++ s.buffer.take pn := by
      rw [List.drop_append_of_le_length (by rw [List.length_drop]; omega), List.drop_drop]
    rw [hdropL]
    by_cases hcase2 : pn + 1 < cn
    · have hmodp : (n + 1) % cn = pn + 1 := by rw [← hmods, Nat.mod_eq_of_lt hcase2]
      rw [hmodp, List.drop_set_of_lt x s.buffer (show pn < pn + 1 by omega),
        take_succ_set s.buffer pn x (by omega), List.append_assoc]
    · have hpn1 : pn + 1 = cn := by omega
      have hmod0 : (n + 1) % cn = 0 := by rw [← hmods, hpn1, Nat.mod_self]
      rw [hmod0]
      simp only [List.drop_zero, List.take_zero, List.append_nil]
      rw [set_of_length_succ s.buffer pn x (by omega),
        List.drop_eq_nil_of_le (by omega)]
      simp

theorem runTwo_inv (cn : Nat) (hc : 1 ≤ cn) (xs : List Int) :
    ∃ s, runTwo (cn : Int) xs = some s ∧ ReachInv cn xs s := by
  induction xs using List.reverseRecOn with
  | nil => exact ⟨_, rfl, reachInv_init cn hc⟩
  | append_singleton ys y ih =>
    obtain ⟨s, hrun, hinv⟩ := ih
    obtain ⟨s2, happ, hinv2⟩ := reachInv_append hc hinv y
    refine ⟨s2, ?_, hinv2⟩
    simp only [runTwo] at hrun ⊢
    rw [List.foldlM_append, hrun]
    simp [List.foldlM, happ]

/-! ### More list helpers -/

theorem lastN_zero (l : List Int) : lastN 0 l = [] := by
  unfold lastN
  simp

theorem drop_range' : ∀ (k s n : Nat), (List.range' s n).drop k = List.range' (s + k) (n - k)
  | 0, s, n => by simp
  | k + 1, s, 0 => by simp
  | k + 1, s, n + 1 => by
    rw [List.range'_succ, List.drop_succ_cons, drop_range' k (s + 1) n]
    congr 1 <;> omega

theorem getElem?_eq_getD {l : List Int} {i : Nat} (h : i < l.length) :
    l[i]? = some (l.getD i 0) := by
  rw [List.getElem?_eq_getElem h, List.getD_eq_getElem?_getD, List.getElem?_eq_getElem h]
  simp

theorem getLast?_eq_getD (l : List Int) (h : l ≠ []) :
    l.getLast? = some (l.getD (l.length - 1) 0) := by
  have h1 : 1 ≤ l.length := List.length_pos.mpr h
  have h2 := getLast?_take_getD l l.length h1 (le_refl _)
  rwa [List.take_length] at h2

theorem head?_take (B : List Int) (n : Nat) (h1 : 1 ≤ n) (hB : B ≠ []) :
    (B.take n).head? = some (B.getD 0 0) := by
  cases B with
  | nil => exact absurd rfl hB
  | cons a t =>
    cases n with
    | zero => omega
    | succ m => simp

theorem lastN_lastN_append (c : Nat) (xs : List Int) (x : Int) :
    lastN c (lastN c xs ++ [x]) = lastN c (xs ++ [x]) := by
  rcases Nat.eq_zero_or_pos c with hc | hc
  · subst hc
    simp [lastN_zero]
  · by_cases h : xs.length ≤ c
    · rw [lastN_of_le h]
    · push_neg at h
      have hlenL : (lastN c xs).length = c := by rw [lastN_length]; omega
      rw [lastN_append_of_le hc (by omega) x, lastN_append_of_le hc (by omega) x,
        lastN_of_le (by omega)]

/-! ### The deque implementation keeps the last `maxlen` items -/

theorem foldOne_inv (cn : Nat) (xs : List Int) :
    xs.foldl CyclicBufferOne.append { maxlen := (cn : Int), buffer := [] } =
      { maxlen := (cn : Int), buffer := lastN cn xs } := by
  induction xs using List.reverseRecOn with
  | nil => simp [lastN]
  | append_singleton ys y ih =>
    rw [List.foldl_append, ih]
    simp only [List.foldl_cons, List.foldl_nil]
    unfold CyclicBufferOne.append
    dsimp only
    congr 1
    rw [Int.toNat_ofNat]
    exact lastN_lastN_append cn ys y

theorem runOne_inv (cn : Nat) (xs : List Int) :
    runOne (cn : Int) xs = .ok { maxlen := (cn : Int), buffer := lastN cn xs } := by
  unfold runOne CyclicBufferOne.init
  rw [if_neg (show ¬ ((cn : Int) < 0) by omega)]
  show Except.ok (xs.foldl CyclicBufferOne.append { maxlen := (cn : Int), buffer := [] }) = _
  rw [foldOne_inv]

/-! ### Evaluating pyGet at the literal indices 0 and -1 -/

theorem pyGet_zero (l : List Int) (h : l ≠ []) : pyGet l 0 = some (l.getD 0 0) := by
  have hlen : 0 < l.length := List.length_pos.mpr h
  have h1 : ¬ ((0 : Int) < 0) := by norm_num
  have h2 : (0 : Int) ≤ (0 : Int) ∧ (0 : Int) < (l.length : Int) := ⟨le_refl _, by omega⟩
  simp only [pyGet, if_neg h1]
  rw [if_pos h2]
  simp

theorem pyGet_neg_one (l : List Int) (h : l ≠ []) :
    pyGet l (-1) = some (l.getD (l.length - 1) 0) := by
  have hlen : 0 < l.length := List.length_pos.mpr h
  have h1 : ((-1 : Int) < 0) := by norm_num
  have h2 : (0 : Int) ≤ (l.length : Int) + -1 ∧ (l.length : Int) + -1 < (l.length : Int) :=
    ⟨by omega, by omega⟩
  simp only [pyGet, if_pos h1]
  rw [if_pos h2]
  have h3 : ((l.length : Int) + -1).toNat = l.length - 1 := by omega
  rw [h3]

/-! ### Peeks on the deque implementation -/

theorem one_peek_top {b : CyclicBufferOne} (h : b.buffer ≠ []) :
    ∃ v, b.peek_top = .ok v ∧ b.buffer.getLast? = some v := by
  unfold CyclicBufferOne.peek_top
  rw [if_neg h, pyGet_neg_one b.buffer h]
  exact ⟨_, rfl, getLast?_eq_getD b.buffer h⟩

theorem one_peek_bottom {b : CyclicBufferOne} (h : b.buffer ≠ []) :
    ∃ v, b.peek_bottom = .ok v ∧ b.buffer.head? = some v := by
  unfold CyclicBufferOne.peek_bottom
  rw [if_neg h, pyGet_zero b.buffer h]
  exact ⟨_, rfl, head?_getD b.buffer h⟩

/-! ### Peeks on the fixed-array implementation over reachable states -/

theorem two_peek_top {cn : Nat} (hc : 1 ≤ cn) {xs : List Int} {s : CyclicBufferTwo}
    (h : ReachInv cn xs s) (hne : xs ≠ []) :
    ∃ v, s.peek_top = .ok v ∧ s.get_buffer.getLast? = some v := by
  obtain ⟨hsize, hlen, hcount, hpos, hget⟩ := h
  set n := xs.length with hn
  set pn := n % cn with hpndef
  have hn1 : 1 ≤ n := List.length_pos.mpr hne
  have hpnlt : pn < cn := Nat.mod_lt n hc
  have hcount_ne : ¬ s.count = 0 := by rw [hcount]; omega
  have hgetEval := get_buffer_eval s cn (min n cn) pn hsize hcount hpos
  unfold CyclicBufferTwo.peek_top
  rw [if_neg hcount_ne, hpos, hsize]
  by_cases hfull : n < cn
  · -- not yet full, so pn = n ≥ 1
    have hpn_eq : pn = n := by rw [hpndef]; exact Nat.mod_eq_of_lt hfull
    have hmod : pyMod ((pn : Int) - 1) (cn : Int) = some ((pn - 1 : Nat) : Int) := by
      unfold pyMod
      rw [if_neg (by omega), Int.fmod_eq_emod _ (by omega),
        Int.emod_eq_of_lt (by omega) (by omega)]
      have hcast : ((pn : Int) - 1) = ((pn - 1 : Nat) : Int) := by omega
      rw [hcast]
    simp only [hmod, pyGet_natCast s.buffer (pn - 1) (by omega : pn - 1 < s.buffer.length)]
    refine ⟨s.buffer.getD (pn - 1) 0, rfl, ?_⟩
    rw [hgetEval, if_pos (by omega), Nat.min_eq_left (by omega), hpn_eq]
    exact getLast?_take_getD s.buffer n (by omega) (by omega)
  · -- full
    push_neg at hfull
    rw [hgetEval, Nat.min_eq_right (by omega), if_neg (lt_irrefl cn)]
    by_cases hpn0 : pn = 0
    · have hmod : pyMod ((pn : Int) - 1) (cn : Int) = some ((cn - 1 : Nat) : Int) := by
        unfold pyMod
        rw [if_neg (by omega), hpn0, Int.fmod_eq_emod _ (by omega)]
        have h2 : ((0 : Nat) : Int) - 1 = -1 := by norm_num
        rw [h2]
        have h3 : ((-1 : Int) % (cn : Int)) = ((cn : Int) - 1) % (cn : Int) := by
          conv_rhs => rw [show ((cn : Int) - 1) = -1 + (cn : Int) * 1 by ring]
          rw [Int.add_mul_emod_self_left]
        rw [h3, Int.emod_eq_of_lt (by omega) (by omega)]
        have hcast : ((cn : Int) - 1) = ((cn - 1 : Nat) : Int) := by omega
        rw [hcast]
      simp only [hmod, pyGet_natCast s.buffer (cn - 1) (by omega : cn - 1 < s.buffer.length)]
      refine ⟨s.buffer.getD (cn - 1) 0, rfl, ?_⟩
      rw [hpn0]
      simp only [List.drop_zero, List.take_zero, List.append_nil]
      have hBne : s.buffer ≠ [] := List.ne_nil_of_length_pos (by omega)
      rw [getLast?_eq_getD s.buffer hBne, hlen]
    · have hpn1 : 1 ≤ pn := by omega
      have hmod : pyMod ((pn : Int) - 1) (cn : Int) = some ((pn - 1 : Nat) : Int) := by
        unfold pyMod
        rw [if_neg (by omega), Int.fmod_eq_emod _ (by omega),
          Int.emod_eq_of_lt (by omega) (by omega)]
        have hcast : ((pn : Int) - 1) = ((pn - 1 : Nat) : Int) := by omega
        rw [hcast]
      simp only [hmod, pyGet_natCast s.buffer (pn - 1) (by omega : pn - 1 < s.buffer.length)]
      refine ⟨s.buffer.getD (pn - 1) 0, rfl, ?_⟩
      have htne : s.buffer.take pn ≠ [] := by
        apply List.ne_nil_of_length_pos
        rw [List.length_take]
        omega
      rw [List.getLast?_append_of_ne_nil _ htne]
      exact getLast?_take_getD s.buffer pn (by omega) (by omega)

theorem two_peek_bottom {cn : Nat} (hc : 1 ≤ cn) {xs : List Int} {s : CyclicBufferTwo}
    (h : ReachInv cn xs s) (hne : xs ≠ []) :
    ∃ v, s.peek_bottom = .ok v ∧ s.get_buffer.head? = some v := by
  obtain ⟨hsize, hlen, hcount, hpos, hget⟩ := h
  set n := xs.length with hn
  set pn := n % cn with hpndef
  have hn1 : 1 ≤ n := List.length_pos.mpr hne
  have hpnlt : pn < cn := Nat.mod_lt n hc
  have hcount_ne : ¬ s.count = 0 := by rw [hcount]; omega
  have hBne : s.buffer ≠ [] := List.ne_nil_of_length_pos (by omega)
  have hgetEval := get_buffer_eval s cn (min n cn) pn hsize hcount hpos
  unfold CyclicBufferTwo.peek_bottom
  rw [if_neg hcount_ne, hcount, hsize]
  by_cases hfull : n < cn
  · -- not yet full: buffer[0]
    rw [if_pos (by exact_mod_cast (by omega : min n cn < cn)), pyGet_zero s.buffer hBne]
    refine ⟨s.buffer.getD 0 0, rfl, ?_⟩
    rw [hgetEval, if_pos (by omega), Nat.min_eq_left (by omega)]
    exact head?_take s.buffer n (by omega) hBne
  · -- full: buffer[position]
    push_neg at hfull
    rw [if_neg (by exact_mod_cast (by omega : ¬ min n cn < cn)), hpos,
      pyGet_natCast s.buffer pn (by omega)]
    refine ⟨s.buffer.getD pn 0, rfl, ?_⟩
    rw [hgetEval, Nat.min_eq_right (by omega), if_neg (lt_irrefl cn)]
    have hdne : s.buffer.drop pn ≠ [] := by
      apply List.ne_nil_of_length_pos
      rw [List.length_drop]
      omega
    rw [List.head?_append_of_ne_nil _ hdne, List.head?_drop, getElem?_eq_getD (by omega)]

theorem two_peek_top_empty {s : CyclicBufferTwo} (h : s.count = 0) :
    s.peek_top = .error .emptyBuffer := by
  unfold CyclicBufferTwo.peek_top
  rw [if_pos h]

theorem two_peek_bottom_empty {s : CyclicBufferTwo} (h : s.count = 0) :
    s.peek_bottom = .error .emptyBuffer := by
  unfold CyclicBufferTwo.peek_bottom
  rw [if_pos h]

/-! ### The claims -/

/-- C1: for every capacity `c ≥ 1` and every `k ≥ 0`, appending the `c + k`
distinct increasing values `0, 1, …, c+k-1` to a fresh buffer of capacity `c`
makes `get_buffer` return exactly `[k, k+1, …, c+k-1]` in that order. -/
theorem claim1_fifo_overwrite (c k : Nat) (hc : 1 ≤ c) :
    ∃ s, runTwo (c : Int) ((List.range (c + k)).map Int.ofNat) = some s ∧
      s.get_buffer = (List.range' k c).map Int.ofNat := by
  obtain ⟨s, hrun, hinv⟩ := runTwo_inv c hc ((List.range (c + k)).map Int.ofNat)
  refine ⟨s, hrun, ?_⟩
  rw [hinv.2.2.2.2]
  unfold lastN
  rw [List.length_map, List.length_range]
  have h1 : c + k - c = k := by omega
  rw [h1, ← List.map_drop, List.range_eq_range', drop_range']
  congr 2 <;> omega

/-- C2: on every reachable state, `get_buffer` returns exactly the slices the
spec describes (`storage[0..count)` when `count < capacity`, else
`storage[position..capacity) ++ storage[0..position)`), and returns the empty
sequence when `count = 0`; it is a total function and never fails. -/
theorem claim2_get_contents_algorithm (c : Nat) (hc : 1 ≤ c) (xs : List Int)
    (s : CyclicBufferTwo) (hrun : runTwo (c : Int) xs = some s) :
    s.get_buffer = specContents s ∧ (s.count = 0 → s.get_buffer = []) := by
  obtain ⟨s2, hrun2, hinv⟩ := runTwo_inv c hc xs
  rw [hrun] at hrun2
  obtain rfl : s = s2 := by injection hrun2
  obtain ⟨hsize, hlen, hcount, hpos, hget⟩ := hinv
  constructor
  · rw [get_buffer_eval s c (min xs.length c) (xs.length % c) hsize hcount hpos]
    unfold specContents
    rw [hsize, hcount, hpos]
    simp only [Int.toNat_ofNat]
    have hpnlt : xs.length % c < c := Nat.mod_lt _ hc
    by_cases hlt : min xs.length c < c
    · rw [if_pos hlt, if_pos (by exact_mod_cast hlt)]
      exact take_eq_range_map s.buffer _ (by omega)
    · rw [if_neg hlt, if_neg (by exact_mod_cast hlt)]
      congr 1
      · rw [drop_eq_range_map s.buffer (xs.length % c), hlen]
      · exact take_eq_range_map s.buffer _ (by omega)
  · intro h0
    rw [hcount] at h0
    have hxs : xs = [] := List.length_eq_zero.mp (by omega)
    rw [hget, hxs]
    simp [lastN]

/-- C3: for every capacity `c ≥ 1` and every append sequence, the length of
the returned contents is at most `c`. -/
theorem claim3_capacity_bound (c : Nat) (hc : 1 ≤ c) (xs : List Int) :
    ∃ s, runTwo (c : Int) xs = some s ∧ s.get_buffer.length ≤ c := by
  obtain ⟨s, hrun, hinv⟩ := runTwo_inv c hc xs
  refine ⟨s, hrun, ?_⟩
  rw [hinv.2.2.2.2, lastN_length]
  omega

/-- C4: after a non-empty sequence of appends, `peek_top` returns the last
element of `get_buffer` and `peek_bottom` returns its first element. -/
theorem claim4_peek_matches_ends (c : Nat) (hc : 1 ≤ c) (xs : List Int) (hne : xs ≠ []) :
    ∃ s v w, runTwo (c : Int) xs = some s ∧
      s.peek_top = .ok v ∧ s.get_buffer.getLast? = some v ∧
      s.peek_bottom = .ok w ∧ s.get_buffer.head? = some w := by
  obtain ⟨s, hrun, hinv⟩ := runTwo_inv c hc xs
  obtain ⟨v, hv1, hv2⟩ := two_peek_top hc hinv hne
  obtain ⟨w, hw1, hw2⟩ := two_peek_bottom hc hinv hne
  exact ⟨s, v, w, hrun, hv1, hv2, hw1, hw2⟩

/-- C5: the deque-based and the fixed-array implementations are behaviourally
equivalent: for every capacity `c ≥ 1` and every append sequence they return
the same contents and the same peek results (equality of the `Except` values
also makes them fail in exactly the same states). -/
theorem claim5_equivalence (c : Nat) (hc : 1 ≤ c) (xs : List Int) :
    ∃ b s, runOne (c : Int) xs = .ok b ∧ runTwo (c : Int) xs = some s ∧
      b.get_buffer = s.get_buffer ∧ b.peek_top = s.peek_top ∧
      b.peek_bottom = s.peek_bottom := by
  obtain ⟨s, hrun, hinv⟩ := runTwo_inv c hc xs
  obtain ⟨b, hone, hbbuf⟩ : ∃ b, runOne (c : Int) xs = .ok b ∧ b.buffer = lastN c xs :=
    ⟨_, runOne_inv c xs, rfl⟩
  have hgb : s.get_buffer = lastN c xs := hinv.2.2.2.2
  refine ⟨b, s, hone, hrun, ?_, ?_, ?_⟩
  · show b.buffer = s.get_buffer
    rw [hbbuf, hgb]
  · by_cases hne : xs = []
    · subst hne
      have hbe : b.buffer = [] := by rw [hbbuf]; simp [lastN]
      have h1 : b.peek_top = .error .emptyBuffer := by
        unfold CyclicBufferOne.peek_top
        rw [if_pos hbe]
      have hc0 : s.count = 0 := by simpa using hinv.2.2.1
      rw [h1, two_peek_top_empty hc0]
    · have hLne : b.buffer ≠ [] := by
        rw [hbbuf]
        apply List.ne_nil_of_length_pos
        rw [lastN_length]
        have := List.length_pos.mpr hne
        omega
      obtain ⟨v2, hv1', hv2'⟩ := one_peek_top hLne
      obtain ⟨v, hv1, hv2⟩ := two_peek_top hc hinv hne
      rw [hbbuf, ← hgb, hv2] at hv2'
      obtain rfl : v = v2 := Option.some.inj hv2'
      rw [hv1, hv1']
  · by_cases hne : xs = []
    · subst hne
      have hbe : b.buffer = [] := by rw [hbbuf]; simp [lastN]
      have h1 : b.peek_bottom = .error .emptyBuffer := by
        unfold CyclicBufferOne.peek_bottom
        rw [if_pos hbe]
      have hc0 : s.count = 0 := by simpa using hinv.2.2.1
      rw [h1, two_peek_bottom_empty hc0]
    · have hLne : b.buffer ≠ [] := by
        rw [hbbuf]
        apply List.ne_nil_of_length_pos
        rw [lastN_length]
        have := List.length_pos.mpr hne
        omega
      obtain ⟨w2, hw1', hw2'⟩ := one_peek_bottom hLne
      obtain ⟨w, hw1, hw2⟩ := two_peek_bottom hc hinv hne
      rw [hbbuf, ← hgb, hw2] at hw2'
      obtain rfl : w = w2 := Option.some.inj hw2'
      rw [hw1, hw1']

/-- C6 (counterexample): at requested capacity `0` neither constructor
fails — the deque constructor returns a buffer with `maxlen = 0` and the
fixed-array constructor returns a state with empty storage, refuting the
claim that construction with capacity `0` fails with `InvalidCapacity`. -/
theorem claim6_counterexample :
    CyclicBufferOne.init 0 = .ok { maxlen := 0, buffer := [] } ∧
    CyclicBufferTwo.init 0 = { buffer := [], size := 0, position := 0, count := 0 } :=
  ⟨rfl, rfl⟩

/-- C6 (amended): construction performs no capacity validation.  The
fixed-array constructor succeeds for every integer capacity, yielding
`count = 0`, `position = 0` and storage `[0] * max(capacity, 0)`; the
deque constructor fails (with `ValueError`, not `InvalidCapacity`) exactly
for negative capacities and succeeds otherwise — in particular both succeed
at capacity `0`, and for capacity ≥ 1 both yield an empty buffer. -/
theorem claim6_no_validation (m : Int) :
    (CyclicBufferTwo.init m).count = 0 ∧ (CyclicBufferTwo.init m).position = 0 ∧
    (CyclicBufferTwo.init m).buffer = List.replicate m.toNat 0 ∧
    CyclicBufferOne.init m =
      (if m < 0 then .error .valueError else .ok { maxlen := m, buffer := [] }) :=
  ⟨rfl, rfl, rfl, rfl⟩

/-- C7: on every reachable state of a buffer with capacity `c ≥ 1`, the peeks
fail with the empty-buffer error exactly when `count = 0`, which happens
exactly when nothing was appended; whenever `count ≠ 0` both peeks succeed. -/
theorem claim7_empty_peek_errors (c : Nat) (hc : 1 ≤ c) (xs : List Int) :
    ∃ s, runTwo (c : Int) xs = some s ∧
      (s.peek_top = .error .emptyBuffer ↔ s.count = 0) ∧
      (s.peek_bottom = .error .emptyBuffer ↔ s.count = 0) ∧
      (s.count = 0 ↔ xs = []) ∧
      (s.count ≠ 0 → (∃ v, s.peek_top = .ok v) ∧ ∃ w, s.peek_bottom = .ok w) := by
  obtain ⟨s, hrun, hinv⟩ := runTwo_inv c hc xs
  have hcount := hinv.2.2.1
  have hcx : s.count = 0 ↔ xs = [] := by
    rw [hcount]
    constructor
    · intro h
      exact List.length_eq_zero.mp (by omega)
    · intro h
      subst h
      simp
  refine ⟨s, hrun, ?_, ?_, hcx, ?_⟩
  · constructor
    · intro h
      by_contra hne0
      obtain ⟨v, hv, _⟩ := two_peek_top hc hinv (fun hh => hne0 (hcx.mpr hh))
      rw [hv] at h
      exact Except.noConfusion h
    · exact two_peek_top_empty
  · constructor
    · intro h
      by_contra hne0
      obtain ⟨w, hw, _⟩ := two_peek_bottom hc hinv (fun hh => hne0 (hcx.mpr hh))
      rw [hw] at h
      exact Except.noConfusion h
    · exact two_peek_bottom_empty
  · intro hne0
    obtain ⟨v, hv, _⟩ := two_peek_top hc hinv (fun hh => hne0 (hcx.mpr hh))
    obtain ⟨w, hw, _⟩ := two_peek_bottom hc hinv (fun hh => hne0 (hcx.mpr hh))
    exact ⟨⟨v, hv⟩, ⟨w, hw⟩⟩

/-- C8: on every reachable state, `append item` stores `item` at
`storage[position]`, advances `position` to `(position + 1) % capacity`,
increments `count` when `count < capacity` and leaves it at `capacity`
otherwise, and does not change `size`. -/
theorem claim8_append_effect (c : Nat) (hc : 1 ≤ c) (xs : List Int) (x : Int) :
    ∃ s s2, runTwo (c : Int) xs = some s ∧ s.append x = some s2 ∧
      s2.buffer = s.buffer.set s.position.toNat x ∧
      s2.buffer.getD s.position.toNat 0 = x ∧
      s2.position = (s.position + 1) % s.size ∧
      s2.count = (if s.count < s.size then s.count + 1 else s.count) ∧
      (¬ s.count < s.size → s2.count = s.size) ∧
      s2.size = s.size := by
  obtain ⟨s, hrun, hinv⟩ := runTwo_inv c hc xs
  obtain ⟨hsize, hlen, hcount, hpos, hget⟩ := hinv
  have hpnlt : xs.length % c < c := Nat.mod_lt _ hc
  have happ := append_eval s x c (xs.length % c) hsize hpos hc (by omega)
  refine ⟨s, _, hrun, happ, ?_, ?_, ?_, ?_, ?_, ?_⟩
  · show s.buffer.set (xs.length % c) x = s.buffer.set s.position.toNat x
    rw [hpos, Int.toNat_ofNat]
  · show (s.buffer.set (xs.length % c) x).getD s.position.toNat 0 = x
    rw [hpos, Int.toNat_ofNat, List.getD_eq_getElem?_getD,
      List.getElem?_set_self (by omega)]
    simp
  · show (((xs.length % c + 1) % c : Nat) : Int) = (s.position + 1) % s.size
    rw [hpos, hsize]
    push_cast
    ring_nf
  · show (if s.count < (c : Int) then s.count + 1 else s.count) =
      (if s.count < s.size then s.count + 1 else s.count)
    rw [hsize]
  · intro hnot
    rw [hsize] at hnot
    show (if s.count < (c : Int) then s.count + 1 else s.count) = s.size
    rw [if_neg hnot, hsize, hcount]
    rw [hcount] at hnot
    omega
  · show (c : Int) = s.size
    rw [hsize]

/-- C9: `append` and `get_buffer` are total on valid buffers: the whole
append chain from a capacity `c ≥ 1` construction succeeds, and a further
append of any item succeeds as well (every index and modulo operation is in
bounds); `get_buffer` is a total function by construction. -/
theorem claim9_append_total (c : Nat) (hc : 1 ≤ c) (xs : List Int) :
    ∃ s, runTwo (c : Int) xs = some s ∧ ∀ x : Int, ∃ s2, s.append x = some s2 := by
  obtain ⟨s, hrun, hinv⟩ := runTwo_inv c hc xs
  refine ⟨s, hrun, fun x => ?_⟩
  obtain ⟨s2, happ, _⟩ := reachInv_append hc hinv x
  exact ⟨s2, happ⟩

/-- C10: after `n` appends to a `CyclicBufferTwo` of capacity `c ≥ 1`,
`count = min n c` and `position = n % c`; in particular
`0 ≤ position < c` and `0 ≤ count ≤ c`. -/
theorem claim10_field_invariants (c : Nat) (hc : 1 ≤ c) (xs : List Int) :
    ∃ s, runTwo (c : Int) xs = some s ∧
      s.count = ((min xs.length c : Nat) : Int) ∧
      s.position = ((xs.length % c : Nat) : Int) ∧
      0 ≤ s.position ∧ s.position < (c : Int) ∧ 0 ≤ s.count ∧ s.count ≤ (c : Int) := by
  obtain ⟨s, hrun, hinv⟩ := runTwo_inv c hc xs
  obtain ⟨hsize, hlen, hcount, hpos, hget⟩ := hinv
  have h1 : xs.length % c < c := Nat.mod_lt _ hc
  exact ⟨s, hrun, hcount, hpos, by rw [hpos]; omega, by rw [hpos]; omega,
    by rw [hcount]; omega, by rw [hcount]; omega⟩

/-! ### Witnesses -/

theorem claim1_witness :
    (1 : Nat) ≤ 3 ∧
    ∃ s, runTwo ((3 : Nat) : Int) ((List.range (3 + 2)).map Int.ofNat) = some s ∧
      s.get_buffer = (List.range' 2 3).map Int.ofNat :=
  ⟨by decide, claim1_fifo_overwrite 3 2 (by decide)⟩

theorem claim2_witness :
    (1 : Nat) ≤ 2 ∧
    runTwo ((2 : Nat) : Int) [5, 6, 7] =
      some { buffer := [7, 6], size := 2, position := 1, count := 2 } ∧
    ({ buffer := [7, 6], size := 2, position := 1, count := 2 } :
        CyclicBufferTwo).get_buffer =
      specContents { buffer := [7, 6], size := 2, position := 1, count := 2 } ∧
    (({ buffer := [7, 6], size := 2, position := 1, count := 2 } :
        CyclicBufferTwo).count = 0 →
      ({ buffer := [7, 6], size := 2, position := 1, count := 2 } :
        CyclicBufferTwo).get_buffer = []) :=
  ⟨by decide, by decide,
    claim2_get_contents_algorithm 2 (by decide) [5, 6, 7]
      { buffer := [7, 6], size := 2, position := 1, count := 2 } (by decide)⟩

theorem claim3_witness :
    (1 : Nat) ≤ 3 ∧
    ∃ s, runTwo ((3 : Nat) : Int) [1, 2, 3, 4] = some s ∧ s.get_buffer.length ≤ 3 :=
  ⟨by decide, claim3_capacity_bound 3 (by decide) [1, 2, 3, 4]⟩

theorem claim4_witness :
    (1 : Nat) ≤ 3 ∧ ([1, 2, 3, 4, 5] : List Int) ≠ [] ∧
    ∃ s v w, runTwo ((3 : Nat) : Int) [1, 2, 3, 4, 5] = some s ∧
      s.peek_top = .ok v ∧ s.get_buffer.getLast? = some v ∧
      s.peek_bottom = .ok w ∧ s.get_buffer.head? = some w :=
  ⟨by decide, by decide, claim4_peek_matches_ends 3 (by decide) [1, 2, 3, 4, 5] (by decide)⟩

theorem claim5_witness :
    (1 : Nat) ≤ 3 ∧
    ∃ b s, runOne ((3 : Nat) : Int) [1, 2, 3, 4, 5] = .ok b ∧
      runTwo ((3 : Nat) : Int) [1, 2, 3, 4, 5] = some s ∧
      b.get_buffer = s.get_buffer ∧ b.peek_top = s.peek_top ∧
      b.peek_bottom = s.peek_bottom :=
  ⟨by decide, claim5_equivalence 3 (by decide) [1, 2, 3, 4, 5]⟩

theorem claim7_witness :
    (1 : Nat) ≤ 3 ∧
    ∃ s, runTwo ((3 : Nat) : Int) [] = some s ∧
      (s.peek_top = .error .emptyBuffer ↔ s.count = 0) ∧
      (s.peek_bottom = .error .emptyBuffer ↔ s.count = 0) ∧
      (s.count = 0 ↔ ([] : List Int) = []) ∧
      (s.count ≠ 0 → (∃ v, s.peek_top = .ok v) ∧ ∃ w, s.peek_bottom = .ok w) :=
  ⟨by decide, claim7_empty_peek_errors 3 (by decide) []⟩

theorem claim8_witness :
    (1 : Nat) ≤ 3 ∧
    ∃ s s2, runTwo ((3 : Nat) : Int) [1, 2, 3] = some s ∧ s.append 4 = some s2 ∧
      s2.buffer = s.buffer.set s.position.toNat 4 ∧
      s2.buffer.getD s.position.toNat 0 = 4 ∧
      s2.position = (s.position + 1) % s.size ∧
      s2.count = (if s.count < s.size then s.count + 1 else s.count) ∧
      (¬ s.count < s.size → s2.count = s.size) ∧
      s2.size = s.size :=
  ⟨by decide, claim8_append_effect 3 (by decide) [1, 2, 3] 4⟩

theorem claim9_witness :
    (1 : Nat) ≤ 1 ∧
    ∃ s, runTwo ((1 : Nat) : Int) [9] = some s ∧ ∀ x : Int, ∃ s2, s.append x = some s2 :=
  ⟨by decide, claim9_append_total 1 (by decide) [9]⟩

theorem claim10_witness :
    (1 : Nat) ≤ 3 ∧
    ∃ s, runTwo ((3 : Nat) : Int) [1, 2, 3, 4, 5] = some s ∧
      s.count = ((min ([1, 2, 3, 4, 5] : List Int).length 3 : Nat) : Int) ∧
      s.position = ((([1, 2, 3, 4, 5] : List Int).length % 3 : Nat) : Int) ∧
      0 ≤ s.position ∧ s.position < ((3 : Nat) : Int) ∧
      0 ≤ s.count ∧ s.count ≤ ((3 : Nat) : Int) :=
  ⟨by decide, claim10_field_invariants 3 (by decide) [1, 2, 3, 4, 5]⟩
